import Mathlib

/-!
# Marshalling contract of the opencore-amrnb JNI wrapper

Shallow embedding of `src/jni/opencore-amrnb-wrapper.cpp`: the three JNI entry
points `AmrDecoderInit`, `AmrDecoderDecode` and `AmrDecoderExit`.

The AMR codec (`interf_dec.h`) and the JNI runtime (`jni.h`) are external to the
repository.  The codec is a parameter (`Codec`): any initializer, any decode
step, any teardown.  The three JNI functions the wrapper calls are modelled
after the JNI specification.  Every call into the codec and every element
access is appended to a trace, so that the marshalling contract can be stated
over what really happened during a call.

The codec receives raw pointers into the two variable-length arrays of the
wrapper's stack frame.  An access of the codec outside the array behind the
pointer is undefined behaviour in C (a store lands in whatever lies next to
the array in the frame); such a run has no result here: it ends at the codec
call and does not return.
-/

namespace AmrWrapper

/-! ## Primitive types -/

/-- JNI `jint`: a signed 32-bit integer. -/
abbrev jint := Int
/-- JNI `jsize`: array lengths and indices. -/
abbrev jsize := Int
/-- JNI `jbyte`: a signed 8-bit integer. -/
abbrev jbyte := Int
/-- JNI `jshort`: a signed 16-bit integer (C `short`). -/
abbrev jshort := Int
/-- Reference to a Java `byte[]`. -/
abbrev jbyteArray := Nat
/-- Reference to a Java `short[]`. -/
abbrev jshortArray := Nat
/-- Value of a native pointer (`void*`, `jint*`). -/
abbrev Ptr := Nat

/-- The C cast `(jint) p` of a pointer value: the low 32 bits, read as a
two's-complement signed integer. -/
def castToJint (p : Ptr) : jint := ((p : Int) + 2 ^ 31) % 2 ^ 32 - 2 ^ 31

/-- What the codec reads through `(const unsigned char*) inBuf` at a cell that
holds the `jbyte` value `b`. -/
def toUnsignedChar (b : jbyte) : Nat := (b % 256).toNat

/-- What a `jbyte` cell holds after the byte value `v` has been stored in it. -/
def toJbyte (v : Int) : jbyte := (v + 128) % 256 - 128

/-! ## The external codec -/

/-- The two transient native buffers of `AmrDecoderDecode`. -/
inductive Buf
  | input
  | output
  deriving DecidableEq

/-- One element access to a transient buffer, at an offset from the pointer
that was handed out. -/
inductive Access
  | read (b : Buf) (i : Nat)
  | write (b : Buf) (i : Nat) (v : Int)
  deriving DecidableEq

/-- The codec library of `interf_dec.h`, over its own state `σ`.  The decode
step receives the state handle, what it sees through the input pointer, what
the output buffer holds on entry, and the bad-frame indicator; it answers with
the element accesses it performs, in order.  It is given no buffer length. -/
structure Codec (σ : Type) where
  Decoder_Interface_init : σ → Ptr × σ
  Decoder_Interface_Decode : σ → Ptr → List Nat → List jshort → Int → List Access × σ
  Decoder_Interface_exit : σ → Ptr → σ

/-! ## The world a JNI call runs in -/

/-- Java exceptions the JNI functions used here can raise. -/
inductive Throwable
  | ArrayIndexOutOfBoundsException
  deriving DecidableEq

/-- What happens during a call, in order. -/
inductive Event
  | call_init
  | call_Decode (state : Ptr) (inp : List Nat) (outp : List jshort) (bfi : Int)
  | call_exit (state : Ptr)
  | javaRead (array : Nat) (i : Nat)
  | javaWrite (array : Nat) (i : Nat)
  | bridge (a : Access)
  | codec (a : Access)
  deriving DecidableEq

/-- The Java heap (byte and short arrays by reference), the pending exception
of the JNI environment, the codec library's state, the contents of
uninitialised stack memory for the two variable-length arrays, and the trace. -/
structure World (σ : Type) where
  byteArrays : jbyteArray → List jbyte
  shortArrays : jshortArray → List jshort
  pending : Option Throwable
  codec : σ
  stackBytes : Nat → jbyte
  stackShorts : Nat → jshort
  trace : List Event

/-! ## JNI functions -/

/-- JNI `GetArrayLength`. -/
def GetArrayLength (a : List Int) : jsize := (a.length : Int)

/-- The bounds check of the JNI region functions: the region `start`, `len` is
rejected for an array of `n` elements. -/
def regionOutOfBounds (n : Nat) (start len : jsize) : Prop :=
  start < 0 ∨ len < 0 ∨ (n : Int) < start + len

instance (n : Nat) (start len : jsize) : Decidable (regionOutOfBounds n start len) := by
  unfold regionOutOfBounds; infer_instance

/-- Store `src` over the front of `dst`, element by element; elements that
have no cell in `dst` are not stored. -/
def copyInto : List Int → List Int → List Int
  | [], dst => dst
  | _ :: _, [] => []
  | s :: ss, _ :: ds => s :: copyInto ss ds

/-- JNI `GetByteArrayRegion(array, start, len, buf)`: copies `len` elements of
the Java array, from `start` on, to `buf[0..len)`; raises
`ArrayIndexOutOfBoundsException` and copies nothing when the region is not
within the array. -/
def GetByteArrayRegion {σ : Type} (w : World σ) (array : jbyteArray) (start len : jsize)
    (buf : List jbyte) : World σ × List jbyte :=
  let a := w.byteArrays array
  if regionOutOfBounds a.length start len then
    ({ w with pending := some Throwable.ArrayIndexOutOfBoundsException }, buf)
  else
    let region := (a.drop start.toNat).take len.toNat
    ({ w with
        trace := w.trace
          ++ (List.range len.toNat).map (fun i => Event.javaRead array (start.toNat + i))
          ++ (List.range len.toNat).map
              (fun i => Event.bridge (Access.write Buf.input i (region.getD i 0))) },
     copyInto region buf)

/-- JNI `SetShortArrayRegion(array, start, len, buf)`: copies `buf[0..len)`
into the Java array, from `start` on; raises `ArrayIndexOutOfBoundsException`
and copies nothing when the region is not within the array. -/
def SetShortArrayRegion {σ : Type} (w : World σ) (array : jshortArray) (start len : jsize)
    (buf : List jshort) : World σ :=
  let a := w.shortArrays array
  if regionOutOfBounds a.length start len then
    { w with pending := some Throwable.ArrayIndexOutOfBoundsException }
  else
    let region := buf.take len.toNat
    { w with
        shortArrays := Function.update w.shortArrays array
          (a.take start.toNat ++ copyInto region (a.drop start.toNat))
        trace := w.trace
          ++ (List.range len.toNat).map (fun i => Event.bridge (Access.read Buf.output i))
          ++ (List.range len.toNat).map (fun i => Event.javaWrite array (start.toNat + i)) }

/-! ## Calls into the codec -/

/-- Effect of one codec access on the two transient buffers.  An access at an
offset that is not below the size of the buffer behind the pointer is
undefined behaviour: a store lands in whatever lies next to the buffer in the
wrapper's stack frame, a read returns what lies there.  Its effect is not
determined by the two buffers, so it has no result. -/
def applyAccess (bufs : List jbyte × List jshort) : Access → Option (List jbyte × List jshort)
  | Access.read Buf.input i => if i < bufs.1.length then some bufs else none
  | Access.read Buf.output i => if i < bufs.2.length then some bufs else none
  | Access.write Buf.input i v =>
    if i < bufs.1.length then some (bufs.1.set i (toJbyte v), bufs.2) else none
  | Access.write Buf.output i v =>
    if i < bufs.2.length then some (bufs.1, bufs.2.set i v) else none

/-- Effect of the codec's accesses, in order; no result as soon as one of them
is outside its buffer. -/
def applyAccesses : List Access → List jbyte × List jshort → Option (List jbyte × List jshort)
  | [], bufs => some bufs
  | a :: as, bufs => (applyAccess bufs a).bind (applyAccesses as)

/-- The call `Decoder_Interface_Decode(state, (const unsigned char*) inBuf,
(short*) outBuf, bfi)`: the world after the codec's accesses, and the two
buffers when the codec returns, or `none` when the codec left the buffers. -/
def callDecode {σ : Type} (codec : Codec σ) (w : World σ) (state : Ptr) (inBuf : List jbyte)
    (outBuf : List jshort) (bfi : jint) : World σ × Option (List jbyte × List jshort) :=
  let inp := inBuf.map toUnsignedChar
  let r := codec.Decoder_Interface_Decode w.codec state inp outBuf bfi
  ({ w with
      codec := r.2
      trace := w.trace ++ [Event.call_Decode state inp outBuf bfi] ++ r.1.map Event.codec },
   applyAccesses r.1 (inBuf, outBuf))

/-! ## The wrapper -/

/-- Entry point `Java_ac_robinson_mov_AMRtoPCMConverter_AmrDecoderInit`:
`return (jint) Decoder_Interface_init();` -/
def Java_ac_robinson_mov_AMRtoPCMConverter_AmrDecoderInit {σ : Type} (codec : Codec σ)
    (w : World σ) : jint × World σ :=
  let r := codec.Decoder_Interface_init w.codec
  (castToJint r.1, { w with codec := r.2, trace := w.trace ++ [Event.call_init] })

/-- What one run of `AmrDecoderDecode` leaves behind.  When the call returns,
`buffers` holds the two transient buffers (`inBuf`, `outBuf`) as they stand
when the codec has returned, and `world` is the world at the return.  When the
codec left the buffers, `buffers` is `none`: the call has no defined return,
and `world` is the world at the point where the behaviour stops being defined
(after the codec's accesses, before anything is stored to the caller's
array). -/
structure DecodeRun (σ : Type) where
  world : World σ
  buffers : Option (List jbyte × List jshort)

/-- The world the caller finds when the call returns; `none` when the run has
no defined return. -/
def DecodeRun.returned {σ : Type} (r : DecodeRun σ) : Option (World σ) :=
  r.buffers.map (fun _ => r.world)

/-- Entry point `Java_ac_robinson_mov_AMRtoPCMConverter_AmrDecoderDecode`: the two
variable-length arrays `inBuf` and `outBuf` start as uninitialised stack
memory; `inBuf` is filled from the caller's array, the codec is called on the
two buffers, and, when the codec has returned, `outBuf` is stored to the
caller's array. -/
def Java_ac_robinson_mov_AMRtoPCMConverter_AmrDecoderDecode {σ : Type} (codec : Codec σ)
    (w : World σ) (nativePointer : Ptr) (inArr : jbyteArray) (out : jshortArray) (bfi : jint) :
    DecodeRun σ :=
  let inLen := GetArrayLength (w.byteArrays inArr)
  let inBuf := (List.range inLen.toNat).map w.stackBytes
  let g := GetByteArrayRegion w inArr 0 inLen inBuf
  let outLen := GetArrayLength (g.1.shortArrays out)
  let outBuf := (List.range outLen.toNat).map g.1.stackShorts
  let d := callDecode codec g.1 nativePointer g.2 outBuf bfi
  match d.2 with
  | none => { world := d.1, buffers := none }
  | some bufs => { world := SetShortArrayRegion d.1 out 0 outLen bufs.2, buffers := some bufs }

/-- Entry point `Java_ac_robinson_mov_AMRtoPCMConverter_AmrDecoderExit`:
`Decoder_Interface_exit(nativePointer);` -/
def Java_ac_robinson_mov_AMRtoPCMConverter_AmrDecoderExit {σ : Type} (codec : Codec σ)
    (w : World σ) (nativePointer : Ptr) : World σ :=
  { w with
      codec := codec.Decoder_Interface_exit w.codec nativePointer
      trace := w.trace ++ [Event.call_exit nativePointer] }

/-! ## Observations on a trace -/

/-- A call into the codec library. -/
def Event.isCodecCall : Event → Bool
  | Event.call_init => true
  | Event.call_Decode _ _ _ _ => true
  | Event.call_exit _ => true
  | _ => false

/-- An element access made by the codec itself. -/
def Event.isCodecAccess : Event → Bool
  | Event.codec _ => true
  | _ => false

/-- An access to a transient buffer stays within the buffer: below `L` in the
input buffer, below `M` in the output buffer. -/
def Access.within (L M : Nat) : Access → Prop
  | Access.read Buf.input i => i < L
  | Access.read Buf.output i => i < M
  | Access.write Buf.input i _ => i < L
  | Access.write Buf.output i _ => i < M

instance (L M : Nat) (a : Access) : Decidable (a.within L M) := by
  cases a with
  | read b i => cases b <;> (unfold Access.within; infer_instance)
  | write b i v => cases b <;> (unfold Access.within; infer_instance)

/-- An event stays within the `L` bytes of the caller's input array `inArr`
and the `M` samples of the caller's output array `out`, and within the
transient buffers of the same sizes. -/
def Event.within (inArr : jbyteArray) (out : jshortArray) (L M : Nat) : Event → Prop
  | Event.javaRead a i => a = inArr ∧ i < L
  | Event.javaWrite a i => a = out ∧ i < M
  | Event.bridge a => a.within L M
  | Event.codec a => a.within L M
  | _ => True

instance (inArr : jbyteArray) (out : jshortArray) (L M : Nat) (e : Event) :
    Decidable (e.within inArr out L M) := by
  cases e <;> (unfold Event.within; infer_instance)

/-- The events of one run of `AmrDecoderDecode`: what the run appended to the
trace. -/
def decodeEvents {σ : Type} (codec : Codec σ) (w : World σ) (nativePointer : Ptr)
    (inArr : jbyteArray) (out : jshortArray) (bfi : jint) : List Event :=
  (Java_ac_robinson_mov_AMRtoPCMConverter_AmrDecoderDecode codec w nativePointer inArr out
    bfi).world.trace.drop w.trace.length

/-- The accesses the codec performs in one run of `AmrDecoderDecode`. -/
def codecAccesses {σ : Type} (codec : Codec σ) (w : World σ) (nativePointer : Ptr)
    (inArr : jbyteArray) (out : jshortArray) (bfi : jint) : List Access :=
  (codec.Decoder_Interface_Decode w.codec nativePointer
    ((w.byteArrays inArr).map toUnsignedChar)
    ((List.range (w.shortArrays out).length).map w.stackShorts) bfi).1

/-- A store to an element of a Java array. -/
def Event.isJavaWrite : Event → Bool
  | Event.javaWrite _ _ => true
  | _ => false

/-- The sample the codec stored last at offset `i` of the output buffer, if it
stored any there. -/
def lastStore : List Access → Nat → Option jshort
  | [], _ => none
  | a :: as, i =>
    match lastStore as i with
    | some v => some v
    | none =>
      match a with
      | Access.write Buf.output j v => if j = i then some v else none
      | _ => none

/-! ## Concrete codecs and worlds -/

/-- A stateless codec whose initializer hands out the handle `p` and whose
decode step stores one frame of `frame` samples at `out[0..frame)`, whatever
the size of the buffer behind the pointer: sample `i` is the first input byte
plus `i`. -/
def frameCodec (p : Ptr) (frame : Nat) : Codec Unit where
  Decoder_Interface_init := fun s => (p, s)
  Decoder_Interface_Decode := fun s _ inp _ _ =>
    ((List.range frame).map (fun i => Access.write Buf.output i ((inp.getD 0 0 : Nat) + i)), s)
  Decoder_Interface_exit := fun s _ => s

/-- A stateless codec whose decode step overwrites the first byte of the frame
it was given and stores no sample. -/
def scribblingCodec : Codec Unit where
  Decoder_Interface_init := fun s => (0, s)
  Decoder_Interface_Decode := fun s _ _ _ _ => ([Access.write Buf.input 0 255], s)
  Decoder_Interface_exit := fun s _ => s

/-- A world in which every `byte[]` reference holds `inp`, every `short[]`
reference holds `outp`, no exception is pending, nothing has happened yet, and
uninitialised stack cell `i` holds `-1 - i`. -/
def sampleWorld (inp : List jbyte) (outp : List jshort) : World Unit where
  byteArrays := fun _ => inp
  shortArrays := fun _ => outp
  pending := none
  codec := ()
  stackBytes := fun i => -1 - (i : Int)
  stackShorts := fun i => -1 - (i : Int)
  trace := []


/-! ## Lemmas on the JNI functions -/

theorem copyInto_of_length_eq (src dst : List Int) (h : src.length = dst.length) :
    copyInto src dst = src := by
  induction src generalizing dst with
  | nil =>
    cases dst with
    | nil => rfl
    | cons d ds => simp at h
  | cons s ss ih =>
    cases dst with
    | nil => simp at h
    | cons d ds =>
      simp only [List.length_cons, Nat.succ.injEq, add_left_inj] at h
      simp [copyInto, ih ds h]

theorem applyAccess_isSome_iff (bufs : List jbyte × List jshort) (a : Access) :
    (applyAccess bufs a).isSome ↔ a.within bufs.1.length bufs.2.length := by
  cases a with
  | read b i => cases b <;> simp [applyAccess, Access.within]
  | write b i v => cases b <;> simp [applyAccess, Access.within]

theorem applyAccess_length (bufs b : List jbyte × List jshort) (a : Access)
    (h : applyAccess bufs a = some b) :
    b.1.length = bufs.1.length ∧ b.2.length = bufs.2.length := by
  cases a with
  | read c i =>
    cases c <;>
    · simp only [applyAccess] at h
      split at h
      · cases h; exact ⟨rfl, rfl⟩
      · cases h
  | write c i v =>
    cases c <;>
    · simp only [applyAccess] at h
      split at h
      · cases h; simp
      · cases h

theorem applyAccesses_length (acc : List Access) (bufs b : List jbyte × List jshort)
    (h : applyAccesses acc bufs = some b) :
    b.1.length = bufs.1.length ∧ b.2.length = bufs.2.length := by
  induction acc generalizing bufs with
  | nil =>
    simp only [applyAccesses, Option.some.injEq] at h
    subst h; exact ⟨rfl, rfl⟩
  | cons a as ih =>
    simp only [applyAccesses, Option.bind_eq_some] at h
    obtain ⟨b1, h1, h2⟩ := h
    have l1 := applyAccess_length bufs b1 a h1
    have l2 := ih b1 h2
    exact ⟨l2.1.trans l1.1, l2.2.trans l1.2⟩

theorem applyAccesses_isSome_iff (acc : List Access) (bufs : List jbyte × List jshort) :
    (applyAccesses acc bufs).isSome ↔ ∀ a ∈ acc, a.within bufs.1.length bufs.2.length := by
  induction acc generalizing bufs with
  | nil => simp [applyAccesses]
  | cons a as ih =>
    simp only [applyAccesses, List.mem_cons, forall_eq_or_imp]
    rw [← applyAccess_isSome_iff]
    cases h1 : applyAccess bufs a with
    | none => simp
    | some b1 =>
      have l1 := applyAccess_length bufs b1 a h1
      simp only [Option.some_bind, Option.isSome_some, true_and]
      rw [ih b1, l1.1, l1.2]

theorem applyAccesses_getElem (acc : List Access) (bufs b : List jbyte × List jshort)
    (i : Nat) (h : applyAccesses acc bufs = some b) (hi : i < bufs.2.length) :
    b.2[i]? = some ((lastStore acc i).getD (bufs.2.getD i 0)) := by
  induction acc generalizing bufs with
  | nil =>
    simp only [applyAccesses, Option.some.injEq] at h
    subst h
    simp [lastStore, List.getD_eq_getElem?_getD, List.getElem?_eq_getElem hi]
  | cons a as ih =>
    simp only [applyAccesses, Option.bind_eq_some] at h
    obtain ⟨b1, h1, h2⟩ := h
    have l1 := applyAccess_length bufs b1 a h1
    have hi1 : i < b1.2.length := by rw [l1.2]; exact hi
    rw [ih b1 h2 hi1]
    simp only [lastStore]
    cases hs : lastStore as i with
    | some v => simp
    | none =>
      simp only [Option.getD_none]
      cases a with
      | read c j =>
        cases c <;>
        · simp only [applyAccess] at h1
          split at h1
          · cases h1; simp
          · cases h1
      | write c j v =>
        cases c with
        | input =>
          simp only [applyAccess] at h1
          split at h1
          · cases h1; simp
          · cases h1
        | output =>
          simp only [applyAccess] at h1
          split at h1
          · cases h1
            by_cases hji : j = i
            · subst hji
              simp [List.getD_eq_getElem?_getD, List.getElem?_set_self, hi]
            · simp [hji, List.getD_eq_getElem?_getD, List.getElem?_set_ne hji]
          · cases h1

theorem not_regionOutOfBounds_full (n : Nat) : ¬ regionOutOfBounds n 0 (n : Int) := by
  show ¬ ((0 : Int) < 0 ∨ (n : Int) < 0 ∨ (n : Int) < 0 + (n : Int))
  omega

theorem GetByteArrayRegion_full {σ : Type} (w : World σ) (array : jbyteArray)
    (buf : List jbyte) (hb : buf.length = (w.byteArrays array).length) :
    GetByteArrayRegion w array 0 (GetArrayLength (w.byteArrays array)) buf =
      ({ w with
          trace := w.trace
            ++ (List.range (w.byteArrays array).length).map (fun i => Event.javaRead array i)
            ++ (List.range (w.byteArrays array).length).map
                (fun i => Event.bridge
                  (Access.write Buf.input i ((w.byteArrays array).getD i 0))) },
       w.byteArrays array) := by
  unfold GetByteArrayRegion GetArrayLength
  simp only [if_neg (not_regionOutOfBounds_full _)]
  simp [copyInto_of_length_eq _ _ hb.symm]

theorem SetShortArrayRegion_full {σ : Type} (w : World σ) (array : jshortArray)
    (buf : List jshort) (hb : buf.length = (w.shortArrays array).length) :
    SetShortArrayRegion w array 0 ((w.shortArrays array).length : Int) buf =
      { w with
          shortArrays := Function.update w.shortArrays array buf
          trace := w.trace
            ++ (List.range (w.shortArrays array).length).map
                (fun i => Event.bridge (Access.read Buf.output i))
            ++ (List.range (w.shortArrays array).length).map
                (fun i => Event.javaWrite array i) } := by
  unfold SetShortArrayRegion
  simp only [if_neg (not_regionOutOfBounds_full _)]
  have h1 : List.take (w.shortArrays array).length buf = buf := by
    rw [← hb]; exact List.take_length buf
  simp [h1, copyInto_of_length_eq _ _ hb]




/-! ## The run of `AmrDecoderDecode`, spelled out -/

theorem decode_run_of_none {σ : Type} (codec : Codec σ) (w : World σ) (h : Ptr)
    (inArr : jbyteArray) (out : jshortArray) (bfi : jint)
    (hA : applyAccesses (codecAccesses codec w h inArr out bfi)
      (w.byteArrays inArr, (List.range (w.shortArrays out).length).map w.stackShorts) = none) :
    Java_ac_robinson_mov_AMRtoPCMConverter_AmrDecoderDecode codec w h inArr out bfi =
      { world :=
          { w with
              codec := (codec.Decoder_Interface_Decode w.codec h
                ((w.byteArrays inArr).map toUnsignedChar)
                ((List.range (w.shortArrays out).length).map w.stackShorts) bfi).2
              trace := w.trace
                ++ ((List.range (w.byteArrays inArr).length).map
                      (fun i => Event.javaRead inArr i)
                  ++ (List.range (w.byteArrays inArr).length).map
                      (fun i => Event.bridge
                        (Access.write Buf.input i ((w.byteArrays inArr).getD i 0)))
                  ++ [Event.call_Decode h ((w.byteArrays inArr).map toUnsignedChar)
                        ((List.range (w.shortArrays out).length).map w.stackShorts) bfi]
                  ++ (codecAccesses codec w h inArr out bfi).map Event.codec) }
        buffers := none } := by
  have hin : ((List.range (GetArrayLength (w.byteArrays inArr)).toNat).map w.stackBytes).length
      = (w.byteArrays inArr).length := by
    simp [GetArrayLength]
  have hM : (GetArrayLength (w.shortArrays out)).toNat = (w.shortArrays out).length := by
    simp [GetArrayLength]
  unfold Java_ac_robinson_mov_AMRtoPCMConverter_AmrDecoderDecode
  simp only [GetByteArrayRegion_full w inArr _ hin, hM, callDecode]
  simp only [codecAccesses] at hA ⊢
  simp only [hA]
  simp [List.append_assoc]

theorem decode_run_of_some {σ : Type} (codec : Codec σ) (w : World σ) (h : Ptr)
    (inArr : jbyteArray) (out : jshortArray) (bfi : jint) (bufs : List jbyte × List jshort)
    (hA : applyAccesses (codecAccesses codec w h inArr out bfi)
      (w.byteArrays inArr, (List.range (w.shortArrays out).length).map w.stackShorts)
        = some bufs) :
    Java_ac_robinson_mov_AMRtoPCMConverter_AmrDecoderDecode codec w h inArr out bfi =
      { world :=
          { w with
              shortArrays := Function.update w.shortArrays out bufs.2
              codec := (codec.Decoder_Interface_Decode w.codec h
                ((w.byteArrays inArr).map toUnsignedChar)
                ((List.range (w.shortArrays out).length).map w.stackShorts) bfi).2
              trace := w.trace
                ++ ((List.range (w.byteArrays inArr).length).map
                      (fun i => Event.javaRead inArr i)
                  ++ (List.range (w.byteArrays inArr).length).map
                      (fun i => Event.bridge
                        (Access.write Buf.input i ((w.byteArrays inArr).getD i 0)))
                  ++ [Event.call_Decode h ((w.byteArrays inArr).map toUnsignedChar)
                        ((List.range (w.shortArrays out).length).map w.stackShorts) bfi]
                  ++ (codecAccesses codec w h inArr out bfi).map Event.codec
                  ++ (List.range (w.shortArrays out).length).map
                      (fun i => Event.bridge (Access.read Buf.output i))
                  ++ (List.range (w.shortArrays out).length).map
                      (fun i => Event.javaWrite out i)) }
        buffers := some bufs } := by
  have hin : ((List.range (GetArrayLength (w.byteArrays inArr)).toNat).map w.stackBytes).length
      = (w.byteArrays inArr).length := by
    simp [GetArrayLength]
  have hM : (GetArrayLength (w.shortArrays out)).toNat = (w.shortArrays out).length := by
    simp [GetArrayLength]
  have hlen := (applyAccesses_length _ _ _ hA).2
  simp only [List.length_map, List.length_range] at hlen
  have hset := SetShortArrayRegion_full
    { w with
        codec := (codec.Decoder_Interface_Decode w.codec h
          ((w.byteArrays inArr).map toUnsignedChar)
          ((List.range (w.shortArrays out).length).map w.stackShorts) bfi).2
        trace := w.trace
          ++ (List.range (w.byteArrays inArr).length).map (fun i => Event.javaRead inArr i)
          ++ (List.range (w.byteArrays inArr).length).map
              (fun i => Event.bridge
                (Access.write Buf.input i ((w.byteArrays inArr).getD i 0)))
          ++ [Event.call_Decode h ((w.byteArrays inArr).map toUnsignedChar)
                ((List.range (w.shortArrays out).length).map w.stackShorts) bfi]
          ++ (codecAccesses codec w h inArr out bfi).map Event.codec }
    out _ hlen
  unfold Java_ac_robinson_mov_AMRtoPCMConverter_AmrDecoderDecode
  simp only [GetByteArrayRegion_full w inArr _ hin, hM, callDecode]
  simp only [codecAccesses, GetArrayLength] at hA hset ⊢
  simp only [hA]
  rw [hset]
  simp [List.append_assoc]

theorem decode_buffers_eq {σ : Type} (codec : Codec σ) (w : World σ) (h : Ptr)
    (inArr : jbyteArray) (out : jshortArray) (bfi : jint) :
    (Java_ac_robinson_mov_AMRtoPCMConverter_AmrDecoderDecode codec w h inArr out bfi).buffers =
      applyAccesses (codecAccesses codec w h inArr out bfi)
        (w.byteArrays inArr, (List.range (w.shortArrays out).length).map w.stackShorts) := by
  cases hA : applyAccesses (codecAccesses codec w h inArr out bfi)
      (w.byteArrays inArr, (List.range (w.shortArrays out).length).map w.stackShorts) with
  | none => rw [decode_run_of_none codec w h inArr out bfi hA]
  | some bufs => rw [decode_run_of_some codec w h inArr out bfi bufs hA]

theorem decode_returns_iff {σ : Type} (codec : Codec σ) (w : World σ) (h : Ptr)
    (inArr : jbyteArray) (out : jshortArray) (bfi : jint) :
    (Java_ac_robinson_mov_AMRtoPCMConverter_AmrDecoderDecode codec w h inArr out
        bfi).buffers.isSome ↔
      ∀ a ∈ codecAccesses codec w h inArr out bfi,
        a.within (w.byteArrays inArr).length (w.shortArrays out).length := by
  rw [decode_buffers_eq, applyAccesses_isSome_iff]
  simp

theorem decodeEvents_eq {σ : Type} (codec : Codec σ) (w : World σ) (h : Ptr)
    (inArr : jbyteArray) (out : jshortArray) (bfi : jint) :
    decodeEvents codec w h inArr out bfi =
      (List.range (w.byteArrays inArr).length).map (fun i => Event.javaRead inArr i)
        ++ (List.range (w.byteArrays inArr).length).map
            (fun i => Event.bridge
              (Access.write Buf.input i ((w.byteArrays inArr).getD i 0)))
        ++ [Event.call_Decode h ((w.byteArrays inArr).map toUnsignedChar)
              ((List.range (w.shortArrays out).length).map w.stackShorts) bfi]
        ++ (codecAccesses codec w h inArr out bfi).map Event.codec
        ++ (if (Java_ac_robinson_mov_AMRtoPCMConverter_AmrDecoderDecode codec w h inArr out
                bfi).buffers.isSome
            then (List.range (w.shortArrays out).length).map
                (fun i => Event.bridge (Access.read Buf.output i))
              ++ (List.range (w.shortArrays out).length).map (fun i => Event.javaWrite out i)
            else []) := by
  unfold decodeEvents
  cases hA : applyAccesses (codecAccesses codec w h inArr out bfi)
      (w.byteArrays inArr, (List.range (w.shortArrays out).length).map w.stackShorts) with
  | none =>
    rw [decode_run_of_none codec w h inArr out bfi hA]
    simp
  | some bufs =>
    rw [decode_run_of_some codec w h inArr out bfi bufs hA]
    simp

theorem decodeEvents_codecCalls {σ : Type} (codec : Codec σ) (w : World σ) (h : Ptr)
    (inArr : jbyteArray) (out : jshortArray) (bfi : jint) :
    (decodeEvents codec w h inArr out bfi).filter Event.isCodecCall =
      [Event.call_Decode h ((w.byteArrays inArr).map toUnsignedChar)
        ((List.range (w.shortArrays out).length).map w.stackShorts) bfi] := by
  rw [decodeEvents_eq]
  split <;>
  simp [List.filter_append, List.filter_map, Function.comp_def, Event.isCodecCall,
    List.filter_cons]


/-! ## The claims -/

/-- C2: `AmrDecoderDecode` hands the codec exactly the caller's input frame:
the one codec call of a run is a decode call whose input buffer has the length
`L` of the caller's array and holds, at every index `i < L`, the caller's byte
`b` at `i` read as unsigned, `b mod 256` (for a byte `-128 ≤ b ≤ 127`: `b`
when `b ≥ 0`, `b + 256` otherwise). -/
theorem decode_hands_codec_the_input_frame {σ : Type} (codec : Codec σ) (w : World σ)
    (h : Ptr) (inArr : jbyteArray) (out : jshortArray) (bfi : jint) :
    ∃ (inp : List Nat) (outp : List jshort),
      (decodeEvents codec w h inArr out bfi).filter Event.isCodecCall =
        [Event.call_Decode h inp outp bfi] ∧
      inp.length = (w.byteArrays inArr).length ∧
      ∀ (i : Nat) (b : Int), (w.byteArrays inArr)[i]? = some b →
        ∃ u : Nat, inp[i]? = some u ∧ (u : Int) = b % 256 ∧
          (-128 ≤ b → b ≤ 127 → (u : Int) = if b < 0 then b + 256 else b) := by
  refine ⟨_, _, decodeEvents_codecCalls codec w h inArr out bfi, by simp, ?_⟩
  intro i b hb
  refine ⟨toUnsignedChar b, by simp [hb], ?_, ?_⟩
  · unfold toUnsignedChar
    have : 0 ≤ b % 256 := Int.emod_nonneg b (by decide)
    omega
  · intro h1 h2
    unfold toUnsignedChar
    split <;> omega

/-- C3: `AmrDecoderDecode` does not mutate the caller's input array: every
`byte[]` of the heap is after the call what it was before, whatever the codec
does to the transient copy, and the only `short[]` that can differ is the
output array. -/
theorem decode_leaves_input_array {σ : Type} (codec : Codec σ) (w : World σ)
    (h : Ptr) (inArr : jbyteArray) (out : jshortArray) (bfi : jint) :
    (Java_ac_robinson_mov_AMRtoPCMConverter_AmrDecoderDecode codec w h inArr out
        bfi).world.byteArrays = w.byteArrays ∧
    ∀ a, a ≠ out →
      (Java_ac_robinson_mov_AMRtoPCMConverter_AmrDecoderDecode codec w h inArr out
        bfi).world.shortArrays a = w.shortArrays a := by
  cases hA : applyAccesses (codecAccesses codec w h inArr out bfi)
      (w.byteArrays inArr, (List.range (w.shortArrays out).length).map w.stackShorts) with
  | none =>
    rw [decode_run_of_none codec w h inArr out bfi hA]
    exact ⟨rfl, fun _ _ => rfl⟩
  | some bufs =>
    rw [decode_run_of_some codec w h inArr out bfi bufs hA]
    refine ⟨rfl, fun a ha => ?_⟩
    simp [Function.update_noteq ha]

/-- The codec can modify the transient copy of the frame: with
`scribblingCodec` the call returns, the transient input buffer ends as
`[-1, 2]`, and the caller's array is still `[1, 2]`. -/
theorem decode_scribbled_copy_stays_native :
    (Java_ac_robinson_mov_AMRtoPCMConverter_AmrDecoderDecode scribblingCodec
        (sampleWorld [1, 2] [0, 0]) 0 0 0 0).buffers = some ([-1, 2], [-1, -2]) ∧
    (Java_ac_robinson_mov_AMRtoPCMConverter_AmrDecoderDecode scribblingCodec
        (sampleWorld [1, 2] [0, 0]) 0 0 0 0).world.byteArrays 0 = [1, 2] := by
  decide

/-- C4: `AmrDecoderDecode` makes exactly one call into the codec, the decode
step, with the handle as its first and the bad-frame indicator as its last
argument, both as received (for every handle, `0` included); the codec state
after the run is the one that decode step returned. -/
theorem decode_calls_codec_once {σ : Type} (codec : Codec σ) (w : World σ)
    (h : Ptr) (inArr : jbyteArray) (out : jshortArray) (bfi : jint) :
    (decodeEvents codec w h inArr out bfi).filter Event.isCodecCall =
      [Event.call_Decode h ((w.byteArrays inArr).map toUnsignedChar)
        ((List.range (w.shortArrays out).length).map w.stackShorts) bfi] ∧
    (Java_ac_robinson_mov_AMRtoPCMConverter_AmrDecoderDecode codec w h inArr out
        bfi).world.codec =
      (codec.Decoder_Interface_Decode w.codec h ((w.byteArrays inArr).map toUnsignedChar)
        ((List.range (w.shortArrays out).length).map w.stackShorts) bfi).2 := by
  refine ⟨decodeEvents_codecCalls codec w h inArr out bfi, ?_⟩
  cases hA : applyAccesses (codecAccesses codec w h inArr out bfi)
      (w.byteArrays inArr, (List.range (w.shortArrays out).length).map w.stackShorts) with
  | none => rw [decode_run_of_none codec w h inArr out bfi hA]
  | some bufs => rw [decode_run_of_some codec w h inArr out bfi bufs hA]

/-- C5 (the code at a handle that does not fit 32 bits): the codec's
initializer returns the handle `2 ^ 32 + 8` and `AmrDecoderInit` returns `8`
to the caller, not the handle the codec created. -/
theorem init_returns_8_for_handle_above_32_bits :
    ((frameCodec (2 ^ 32 + 8) 160).Decoder_Interface_init ()).1 = 4294967304 ∧
    (Java_ac_robinson_mov_AMRtoPCMConverter_AmrDecoderInit (frameCodec (2 ^ 32 + 8) 160)
        (sampleWorld [] [])).1 = 8 := by
  decide

/-- C6 as stated fails: with an output array of `M = 10` samples and a codec
that stores a frame of 160 samples, not every access of the run stays within
the `M` samples; the codec's store at offset 10 is outside the transient
output buffer. -/
theorem decode_codec_store_beyond_M :
    Event.codec (Access.write Buf.output 10 10) ∈
        decodeEvents (frameCodec 0 160) (sampleWorld [] (List.replicate 10 0)) 0 0 0 0 ∧
    ¬ ∀ e ∈ decodeEvents (frameCodec 0 160) (sampleWorld [] (List.replicate 10 0)) 0 0 0 0,
        Event.within 0 0 0 10 e := by
  have hmem : Event.codec (Access.write Buf.output 10 10) ∈
      decodeEvents (frameCodec 0 160) (sampleWorld [] (List.replicate 10 0)) 0 0 0 0 := by
    rw [decodeEvents_eq]
    simp only [List.mem_append, List.mem_map]
    refine Or.inl (Or.inr ⟨Access.write Buf.output 10 10, ?_, rfl⟩)
    simp only [codecAccesses, frameCodec, List.mem_map, List.mem_range]
    exact ⟨10, by decide, by simp [sampleWorld]⟩
  refine ⟨hmem, fun hall => ?_⟩
  have hw := hall _ hmem
  simp [Event.within, Access.within] at hw

/-- C6, amended: every access the bridge itself makes in a run of
`AmrDecoderDecode` stays within bounds (reads of the caller's input array and
stores to the transient input buffer below `L`; reads of the transient output
buffer and stores to the caller's output array below `M`); the accesses of the
codec, which is handed no length, are within bounds exactly when the codec
keeps them so, and then every access of the run is. -/
theorem decode_bridge_accesses_within {σ : Type} (codec : Codec σ) (w : World σ)
    (h : Ptr) (inArr : jbyteArray) (out : jshortArray) (bfi : jint) :
    (∀ e ∈ decodeEvents codec w h inArr out bfi, e.isCodecAccess = false →
        e.within inArr out (w.byteArrays inArr).length (w.shortArrays out).length) ∧
    ((∀ a ∈ codecAccesses codec w h inArr out bfi,
          a.within (w.byteArrays inArr).length (w.shortArrays out).length) ↔
      ∀ e ∈ decodeEvents codec w h inArr out bfi,
        e.within inArr out (w.byteArrays inArr).length (w.shortArrays out).length) := by
  have key : ∀ e ∈ decodeEvents codec w h inArr out bfi,
      (e.within inArr out (w.byteArrays inArr).length (w.shortArrays out).length) ∨
        ∃ a ∈ codecAccesses codec w h inArr out bfi, e = Event.codec a := by
    intro e he
    rw [decodeEvents_eq] at he
    simp only [List.mem_append, List.mem_map, List.mem_range, List.mem_singleton] at he
    rcases he with (((⟨i, hi, rfl⟩ | ⟨i, hi, rfl⟩) | rfl) | ⟨a, ha, rfl⟩) | hpost
    · exact Or.inl ⟨rfl, hi⟩
    · exact Or.inl hi
    · exact Or.inl trivial
    · exact Or.inr ⟨a, ha, rfl⟩
    · split at hpost
      · simp only [List.mem_append, List.mem_map, List.mem_range] at hpost
        rcases hpost with ⟨i, hi, rfl⟩ | ⟨i, hi, rfl⟩
        · exact Or.inl hi
        · exact Or.inl ⟨rfl, hi⟩
      · simp at hpost
  refine ⟨fun e he hc => ?_, fun hall e he => ?_, fun hall a ha => ?_⟩
  · rcases key e he with hw | ⟨a, _, rfl⟩
    · exact hw
    · simp [Event.isCodecAccess] at hc
  · rcases key e he with hw | ⟨a, ha, rfl⟩
    · exact hw
    · exact hall a ha
  · have hmem : Event.codec a ∈ decodeEvents codec w h inArr out bfi := by
      rw [decodeEvents_eq]
      simp only [List.mem_append, List.mem_map]
      exact Or.inl (Or.inr ⟨a, ha, rfl⟩)
    exact hall _ hmem

theorem castToJint_eq (p : Nat) :
    (castToJint p : Int) =
      if p % 2 ^ 32 < 2 ^ 31 then ((p % 2 ^ 32 : Nat) : Int)
      else ((p % 2 ^ 32 : Nat) : Int) - 2 ^ 32 := by
  show (((p : Int) + 2 ^ 31) % 2 ^ 32 - 2 ^ 31 : Int) = _
  split <;> omega

theorem castToJint_eq_self_iff (p : Nat) : (castToJint p : Int) = (p : Int) ↔ p < 2 ^ 31 := by
  show (((p : Int) + 2 ^ 31) % 2 ^ 32 - 2 ^ 31 : Int) = (p : Int) ↔ _
  constructor <;> intro hp <;> omega

/-- C8: `AmrDecoderExit` makes exactly one call into the codec, the teardown
routine, with the handle it was given; the codec state is the one that
teardown returned, and the Java arrays and the pending exception are
untouched. -/
theorem exit_calls_teardown_once {σ : Type} (codec : Codec σ) (w : World σ)
    (nativePointer : Ptr) :
    (Java_ac_robinson_mov_AMRtoPCMConverter_AmrDecoderExit codec w nativePointer).trace =
      w.trace ++ [Event.call_exit nativePointer] ∧
    (Java_ac_robinson_mov_AMRtoPCMConverter_AmrDecoderExit codec w nativePointer).codec =
      codec.Decoder_Interface_exit w.codec nativePointer ∧
    (Java_ac_robinson_mov_AMRtoPCMConverter_AmrDecoderExit codec w nativePointer).byteArrays =
      w.byteArrays ∧
    (Java_ac_robinson_mov_AMRtoPCMConverter_AmrDecoderExit codec w nativePointer).shortArrays =
      w.shortArrays ∧
    (Java_ac_robinson_mov_AMRtoPCMConverter_AmrDecoderExit codec w nativePointer).pending =
      w.pending :=
  ⟨rfl, rfl, rfl, rfl, rfl⟩

/-- C9: `AmrDecoderInit` truncates the codec handle to a signed 32-bit
integer: for every pointer value `p` the initializer returns, the result is
`p mod 2^32` read as two's complement; it is `p` exactly when `p < 2^31`; and
two distinct 64-bit handles are mapped to the same result. -/
theorem init_truncates_handle {σ : Type} (codec : Codec σ) (w : World σ) :
    ((Java_ac_robinson_mov_AMRtoPCMConverter_AmrDecoderInit codec w).1 =
      if (codec.Decoder_Interface_init w.codec).1 % 2 ^ 32 < 2 ^ 31
      then (((codec.Decoder_Interface_init w.codec).1 % 2 ^ 32 : Nat) : Int)
      else (((codec.Decoder_Interface_init w.codec).1 % 2 ^ 32 : Nat) : Int) - 2 ^ 32) ∧
    ((Java_ac_robinson_mov_AMRtoPCMConverter_AmrDecoderInit codec w).1 =
        (((codec.Decoder_Interface_init w.codec).1 : Nat) : Int) ↔
      (codec.Decoder_Interface_init w.codec).1 < 2 ^ 31) ∧
    ∃ p1 p2 : Ptr, p1 < 2 ^ 64 ∧ p2 < 2 ^ 64 ∧ p1 ≠ p2 ∧
      ∀ (frame : Nat) (u : World Unit),
        (Java_ac_robinson_mov_AMRtoPCMConverter_AmrDecoderInit (frameCodec p1 frame) u).1 =
          (Java_ac_robinson_mov_AMRtoPCMConverter_AmrDecoderInit (frameCodec p2 frame) u).1 := by
  refine ⟨?_, ?_, 8, 2 ^ 32 + 8, by norm_num, by norm_num, by norm_num, ?_⟩
  · exact castToJint_eq _
  · exact castToJint_eq_self_iff _
  · intro frame u
    show castToJint 8 = castToJint (2 ^ 32 + 8)
    decide




/-- C1 as stated fails: with an output array of `M = 10` samples and a codec
that stores a frame of 160 samples, the codec leaves the transient output
buffer, the call has no defined return, no sample is stored to the caller's
array, and the array still holds its ten prior samples. -/
theorem decode_overrun_writes_no_sample :
    (Java_ac_robinson_mov_AMRtoPCMConverter_AmrDecoderDecode (frameCodec 0 160)
        (sampleWorld [] (List.replicate 10 7)) 0 0 0 0).returned = none ∧
    (decodeEvents (frameCodec 0 160) (sampleWorld [] (List.replicate 10 7)) 0 0 0
        0).filter Event.isJavaWrite = [] ∧
    (Java_ac_robinson_mov_AMRtoPCMConverter_AmrDecoderDecode (frameCodec 0 160)
        (sampleWorld [] (List.replicate 10 7)) 0 0 0 0).world.shortArrays 0 =
      List.replicate 10 7 := by
  have hb : (Java_ac_robinson_mov_AMRtoPCMConverter_AmrDecoderDecode (frameCodec 0 160)
      (sampleWorld [] (List.replicate 10 7)) 0 0 0 0).buffers = none := by
    decide
  refine ⟨by rw [DecodeRun.returned, hb]; rfl, by decide, by decide⟩

/-- C1, amended: when every access of the codec stays within the two transient
buffers, `AmrDecoderDecode` returns and writes exactly `M` samples into the
caller's output array: the stores to the array are those at the indices
`0, …, M - 1`, the array still has length `M`, and for every `i < M` its
element `i` is element `i` of the transient output buffer as it stands when the
codec has returned, which is the sample the codec stored last at `i`, or the
uninitialised cell `i` when the codec stored none there. -/
theorem decode_writes_exactly_M_samples {σ : Type} (codec : Codec σ) (w : World σ)
    (h : Ptr) (inArr : jbyteArray) (out : jshortArray) (bfi : jint)
    (hin : ∀ a ∈ codecAccesses codec w h inArr out bfi,
      a.within (w.byteArrays inArr).length (w.shortArrays out).length) :
    ∃ (u : World σ) (bufs : List jbyte × List jshort),
      (Java_ac_robinson_mov_AMRtoPCMConverter_AmrDecoderDecode codec w h inArr out
          bfi).returned = some u ∧
      (Java_ac_robinson_mov_AMRtoPCMConverter_AmrDecoderDecode codec w h inArr out
          bfi).buffers = some bufs ∧
      (u.shortArrays out).length = (w.shortArrays out).length ∧
      bufs.2.length = (w.shortArrays out).length ∧
      (∀ i : Nat, i < (w.shortArrays out).length →
        ∃ v : jshort, (u.shortArrays out)[i]? = some v ∧ bufs.2[i]? = some v ∧
          v = (lastStore (codecAccesses codec w h inArr out bfi) i).getD (w.stackShorts i)) ∧
      (decodeEvents codec w h inArr out bfi).filter Event.isJavaWrite =
        (List.range (w.shortArrays out).length).map (fun i => Event.javaWrite out i) := by
  have hsome := (decode_returns_iff codec w h inArr out bfi).mpr hin
  obtain ⟨bufs, hb⟩ := Option.isSome_iff_exists.mp hsome
  have hA := hb
  rw [decode_buffers_eq] at hA
  have hlen := (applyAccesses_length _ _ _ hA).2
  simp only [List.length_map, List.length_range] at hlen
  have hev := decodeEvents_eq codec w h inArr out bfi
  rw [if_pos hsome] at hev
  refine ⟨(Java_ac_robinson_mov_AMRtoPCMConverter_AmrDecoderDecode codec w h inArr out
    bfi).world, bufs, by rw [DecodeRun.returned, hb]; rfl, hb, ?_, hlen, ?_, ?_⟩
  · rw [decode_run_of_some codec w h inArr out bfi bufs hA]
    simpa using hlen
  · intro i hi
    have hg := applyAccesses_getElem _ _ _ i hA (by simpa using hi)
    refine ⟨_, ?_, hg, ?_⟩
    · rw [decode_run_of_some codec w h inArr out bfi bufs hA]
      simpa using hg
    · simp [List.getD_eq_getElem?_getD, hi]
  · rw [hev]
    simp [List.filter_append, List.filter_map, Function.comp_def, Event.isJavaWrite]

/-- Witness of C1: a frame `[1, 2]`, an output array of three samples and a
codec that stores two. -/
theorem decode_writes_exactly_M_samples_witness :
    ∃ (u : World Unit) (bufs : List jbyte × List jshort),
      (Java_ac_robinson_mov_AMRtoPCMConverter_AmrDecoderDecode (frameCodec 0 2)
          (sampleWorld [1, 2] [5, 5, 5]) 0 0 0 0).returned = some u ∧
      (Java_ac_robinson_mov_AMRtoPCMConverter_AmrDecoderDecode (frameCodec 0 2)
          (sampleWorld [1, 2] [5, 5, 5]) 0 0 0 0).buffers = some bufs ∧
      (u.shortArrays 0).length = 3 ∧
      bufs.2.length = 3 ∧
      (∀ i : Nat, i < 3 →
        ∃ v : jshort, (u.shortArrays 0)[i]? = some v ∧ bufs.2[i]? = some v ∧
          v = (lastStore (codecAccesses (frameCodec 0 2) (sampleWorld [1, 2] [5, 5, 5]) 0 0 0 0)
            i).getD (-1 - (i : Int))) ∧
      (decodeEvents (frameCodec 0 2) (sampleWorld [1, 2] [5, 5, 5]) 0 0 0
          0).filter Event.isJavaWrite =
        [Event.javaWrite 0 0, Event.javaWrite 0 1, Event.javaWrite 0 2] :=
  decode_writes_exactly_M_samples (frameCodec 0 2) (sampleWorld [1, 2] [5, 5, 5]) 0 0 0 0
    (by decide)


/-- C7 as stated fails: with a frame of three bytes, an output array of two
samples and a codec that stores a frame of 160 samples, the codec leaves the
transient output buffer and the call does not complete: it has no defined
return. -/
theorem decode_overrun_does_not_complete :
    (Java_ac_robinson_mov_AMRtoPCMConverter_AmrDecoderDecode (frameCodec 0 160)
        (sampleWorld [1, -2, 3] [0, 0]) 0 0 0 0).returned = none := by
  have hb : (Java_ac_robinson_mov_AMRtoPCMConverter_AmrDecoderDecode (frameCodec 0 160)
      (sampleWorld [1, -2, 3] [0, 0]) 0 0 0 0).buffers = none := by
    decide
  rw [DecodeRun.returned, hb]
  rfl

/-- C7, amended: entered with no pending exception, `AmrDecoderDecode` raises
no exception, whatever the codec does: the region read from the input array
(start 0, length `L`) and the region stored to the output array (start 0,
length `M`) both pass the bounds check of the JNI and no exception is pending
at any point of the run; and when every access of the codec stays within the
two transient buffers, the call completes, with no pending exception. -/
theorem decode_surfaces_no_error {σ : Type} (codec : Codec σ) (w : World σ)
    (h : Ptr) (inArr : jbyteArray) (out : jshortArray) (bfi : jint)
    (hp : w.pending = none) :
    ¬ regionOutOfBounds (w.byteArrays inArr).length 0 (GetArrayLength (w.byteArrays inArr)) ∧
    ¬ regionOutOfBounds (w.shortArrays out).length 0 (GetArrayLength (w.shortArrays out)) ∧
    (Java_ac_robinson_mov_AMRtoPCMConverter_AmrDecoderDecode codec w h inArr out
        bfi).world.pending = none ∧
    ((∀ a ∈ codecAccesses codec w h inArr out bfi,
        a.within (w.byteArrays inArr).length (w.shortArrays out).length) →
      ∃ u : World σ,
        (Java_ac_robinson_mov_AMRtoPCMConverter_AmrDecoderDecode codec w h inArr out
          bfi).returned = some u ∧ u.pending = none) := by
  have hpend : (Java_ac_robinson_mov_AMRtoPCMConverter_AmrDecoderDecode codec w h inArr out
      bfi).world.pending = none := by
    cases hA : applyAccesses (codecAccesses codec w h inArr out bfi)
        (w.byteArrays inArr, (List.range (w.shortArrays out).length).map w.stackShorts) with
    | none =>
      rw [decode_run_of_none codec w h inArr out bfi hA]
      exact hp
    | some bufs =>
      rw [decode_run_of_some codec w h inArr out bfi bufs hA]
      exact hp
  refine ⟨not_regionOutOfBounds_full _, not_regionOutOfBounds_full _, hpend, fun hin => ?_⟩
  have hsome := (decode_returns_iff codec w h inArr out bfi).mpr hin
  obtain ⟨bufs, hb⟩ := Option.isSome_iff_exists.mp hsome
  exact ⟨_, by rw [DecodeRun.returned, hb]; rfl, hpend⟩

/-- Witness of C7: a frame of three bytes, an output array of two samples and
a codec that stores two. -/
theorem decode_surfaces_no_error_witness :
    ¬ regionOutOfBounds 3 0 3 ∧ ¬ regionOutOfBounds 2 0 2 ∧
    ∃ u : World Unit,
      (Java_ac_robinson_mov_AMRtoPCMConverter_AmrDecoderDecode (frameCodec 0 2)
        (sampleWorld [1, -2, 3] [0, 0]) 0 0 0 0).returned = some u ∧ u.pending = none :=
  ⟨(decode_surfaces_no_error (frameCodec 0 2) (sampleWorld [1, -2, 3] [0, 0]) 0 0 0 0 rfl).1,
    (decode_surfaces_no_error (frameCodec 0 2) (sampleWorld [1, -2, 3] [0, 0]) 0 0 0 0 rfl).2.1,
    (decode_surfaces_no_error (frameCodec 0 2) (sampleWorld [1, -2, 3] [0, 0]) 0 0 0 0
      rfl).2.2.2 (by decide)⟩

end AmrWrapper
